import Mathlib

/-!
Verification of the hybrid retrieval engine of this repository
(`src/rag_gestionale/retrieval/hybrid_retriever.py` together with
`vector_store.py` and `lexical_search.py`, data model in `core/models.py`,
defaults in `config/settings.py`).

Modelling conventions:
* Python floats are modelled as exact rationals (`ℚ`); float formatting
  `f"{x:.3f}"` is modelled by `fmt3` (round half to even at 3 decimals).
* Python `list.sort(key=..., reverse=True)` is a stable descending sort;
  it is modelled by the stable insertion sort `sortByScoreDesc`
  (all stable sorts of the same list under the same key agree).
* Backend calls (Qdrant, OpenSearch, the cross-encoder) are modelled as
  explicit parameters carrying either a result or a raised exception
  (`Except String ...`); `try/except` blocks in the source become `match`
  on those values.
* `datetime` fields and image payloads are irrelevant to the retrieval
  logic under verification and are not carried in the chunk model.
-/

-- The Batteries implementations of the rational operations are marked
-- irreducible; unseal them locally so that concrete runs of the engine
-- reduce under `decide`.
attribute [local semireducible] Rat.add Rat.mul Rat.inv Rat.sub Rat.ofScientific

/-- `core/models.py` `ContentType`. -/
inductive ContentType where
  | procedure
  | parameter
  | concept
  | faq
  | error
  | table
  | figure
deriving DecidableEq, Repr

/-- `core/models.py` `QueryType`. -/
inductive QueryType where
  | parameter
  | procedure
  | error
  | general
deriving DecidableEq, Repr

/-- `core/models.py` `SourceFormat`. -/
inductive SourceFormat where
  | html
  | pdf
  | markdown
deriving DecidableEq, Repr

/-- `core/models.py` `ChunkMetadata` (the `updated_at` timestamp is not
modelled; it plays no role in the retrieval logic). -/
structure ChunkMetadata where
  id : String
  title : String
  breadcrumbs : List String := []
  section_level : Nat
  section_path : String
  content_type : ContentType
  version : String
  module : String
  param_name : Option String := none
  ui_path : Option String := none
  error_code : Option String := none
  source_url : String
  source_format : SourceFormat
  page_range : Option (List Nat) := none
  anchor : Option String := none
  lang : String := "it"
  hash : String
  parent_chunk_id : Option String := none
  child_chunk_ids : List String := []
  image_ids : List String := []
deriving DecidableEq, Repr

/-- `core/models.py` `DocumentChunk` (embedding caches are modelled as
optional data; they are never read by the retrieval logic). -/
structure DocumentChunk where
  content : String
  metadata : ChunkMetadata
  dense_embedding : Option (List ℚ) := none
  summary : Option String := none
  keywords : List String := []
deriving DecidableEq, Repr

/-- `core/models.py` `SearchResult`: a chunk paired with a score and the
explanation of the stage that produced the score (image payloads are not
modelled). -/
structure SearchResult where
  chunk : DocumentChunk
  score : ℚ
  explanation : String
deriving DecidableEq, Repr

/-- `config/settings.py` `RetrievalSettings` (fields used by the engine). -/
structure RetrievalSettings where
  k_dense : Nat
  k_lexical : Nat
  k_rerank : Nat
  k_final : Nat
  title_boost : ℚ
  breadcrumbs_boost : ℚ
  param_name_boost : ℚ
  error_code_boost : ℚ
  diversification_threshold : Nat
deriving DecidableEq, Repr

/-- The default values declared in `config/settings.py`. -/
def defaultRetrievalSettings : RetrievalSettings where
  k_dense := 40
  k_lexical := 20
  k_rerank := 30
  k_final := 10
  title_boost := 1.4
  breadcrumbs_boost := 1.2
  param_name_boost := 2.0
  error_code_boost := 2.5
  diversification_threshold := 2

/-- Chunk identifier of a search result (`result.chunk.metadata.id`). -/
def resultId (r : SearchResult) : String :=
  r.chunk.metadata.id

/-! ### Float formatting `f"{x:.3f}"` -/

/-- Floor of a rational, computably (`Int.fdiv` is floor division). -/
def qfloor (q : ℚ) : ℤ :=
  Int.fdiv q.num (q.den : ℤ)

/-- Round to the nearest integer, ties to even, as Python float formatting
rounds the decimal expansion. -/
def roundHalfEven (q : ℚ) : ℤ :=
  let f : ℤ := qfloor q
  let frac : ℚ := q - (f : ℚ)
  if frac < 1 / 2 then f
  else if (1 : ℚ) / 2 < frac then f + 1
  else if f % 2 = 0 then f else f + 1

/-- Left-pad a fractional part to three digits. -/
def pad3 (n : Nat) : String :=
  if n < 10 then "00" ++ toString n
  else if n < 100 then "0" ++ toString n
  else toString n

/-- Model of the Python format `f"{x:.3f}"` on exact rationals. -/
def fmt3 (q : ℚ) : String :=
  let n : ℤ := roundHalfEven (q * 1000)
  if n < 0 then
    "-" ++ toString ((-n).toNat / 1000) ++ "." ++ pad3 ((-n).toNat % 1000)
  else
    toString (n.toNat / 1000) ++ "." ++ pad3 (n.toNat % 1000)

/-! ### Stable descending sort by score

`combined.sort(key=lambda x: x.score, reverse=True)` in Python is a stable
sort placing higher scores first.  Insertion sort where an element is
inserted before the first strictly smaller score is that stable sort. -/

/-- Insert `a` into a descending list, after every element whose score is
strictly greater (so that, on ties, earlier elements stay first). -/
def insertDesc (a : SearchResult) : List SearchResult → List SearchResult
  | [] => [a]
  | b :: l => if a.score < b.score then b :: insertDesc a l else a :: b :: l

/-- Stable descending sort by score, modelling
`results.sort(key=lambda x: x.score, reverse=True)`. -/
def sortByScoreDesc : List SearchResult → List SearchResult
  | [] => []
  | a :: l => insertDesc a (sortByScoreDesc l)

/-- The score sequence of a result list is non-increasing. -/
abbrev ScoresNonIncreasing (l : List SearchResult) : Prop :=
  l.Pairwise (fun a b => b.score ≤ a.score)

instance (l : List SearchResult) : Decidable (ScoresNonIncreasing l) :=
  List.instDecidablePairwise l

/-! ### Score fusion (`HybridRetriever._combine_results`) -/

/-- One step of Python's `max`: keep the current value on ties, replace it
on strictly larger values. -/
def pyMax (m : ℚ) (x : SearchResult) : ℚ :=
  if m < x.score then x.score else m

/-- `max([r.score for r in results], default=1.0)`: the channel's maximal
score, `1.0` when the channel returned nothing. -/
def channelMax : List SearchResult → ℚ
  | [] => 1
  | r :: rest => rest.foldl pyMax r.score

/-- Lookup in the model of the `seen_chunks` dict: the most recent binding
of a chunk id to the index (in `combined`) of the result object the dict
holds for it. -/
def seenLookup : List (String × Nat) → String → Option Nat
  | [], _ => none
  | (k, v) :: rest, cid => if k = cid then some v else seenLookup rest cid

/-- State of the fusion loops: the `combined` list together with the
`seen_chunks` dict (chunk id ↦ index of its result object in `combined`). -/
abbrev CombineState := List SearchResult × List (String × Nat)

/-- One iteration of the vector loop of `_combine_results`: normalize the
score, overwrite the explanation, append to `combined` and (re)bind the id
in `seen_chunks`. -/
def addVectorResult (maxV : ℚ) (st : CombineState) (r : SearchResult) : CombineState :=
  let ns := r.score / maxV
  let r' : SearchResult :=
    { r with score := ns, explanation := "Vector: " ++ fmt3 ns }
  (st.1 ++ [r'], (resultId r, st.1.length) :: st.2)

/-- One iteration of the lexical loop of `_combine_results`: when the id is
already in `seen_chunks` the stored result object is mutated in place to
the `0.6/0.4` blend, otherwise the normalized lexical result is appended
and bound. -/
def addLexicalResult (maxL : ℚ) (st : CombineState) (r : SearchResult) : CombineState :=
  let cid := resultId r
  let ns := r.score / maxL
  match seenLookup st.2 cid with
  | some idx =>
    match st.1.get? idx with
    | some ex =>
      let blended := ex.score * 0.6 + ns * 0.4
      (st.1.set idx
        { ex with score := blended, explanation := "Hybrid: " ++ fmt3 blended },
       st.2)
    | none => st
  | none =>
    let r' : SearchResult :=
      { r with score := ns, explanation := "Lexical: " ++ fmt3 ns }
    (st.1 ++ [r'], (cid, st.1.length) :: st.2)

/-- `HybridRetriever._combine_results`: normalize each channel by its own
maximum, seed with the vector results, blend or append the lexical
results, and sort by score descending. -/
def combine_results (vector_results lexical_results : List SearchResult) :
    List SearchResult :=
  let maxV := channelMax vector_results
  let maxL := channelMax lexical_results
  let st1 := vector_results.foldl (addVectorResult maxV) ([], [])
  let st2 := lexical_results.foldl (addLexicalResult maxL) st1
  sortByScoreDesc st2.1

/-- The chunk identifiers of a result list, in order. -/
def idsOf (l : List SearchResult) : List String :=
  l.map resultId

/-- Invariant of the fusion loops: the `seen_chunks` dict has a binding for
exactly the chunk ids present in `combined`. -/
def SeenMatches (st : CombineState) : Prop :=
  ∀ cid : String, (seenLookup st.2 cid).isSome ↔ cid ∈ idsOf st.1

/-! ### Reranking (`HybridRetriever._rerank_results`)

The cross-encoder is an external batched scorer; a call that raises is an
`Except.error`.  The source has no `try/except` around `predict`. -/

/-- The `for i, result in enumerate(results)` loop of `_rerank_results`:
blend `0.3*original + 0.7*rerank` and overwrite the explanation. -/
def rerankApply (results : List SearchResult) (rerank_scores : List ℚ) :
    List SearchResult :=
  List.zipWith
    (fun r s =>
      let combined := r.score * 0.3 + s * 0.7
      { r with score := combined, explanation := "Reranked: " ++ fmt3 combined })
    results rerank_scores

/-- `HybridRetriever._rerank_results`: return the list unchanged when no
reranker is loaded or there is at most one result; otherwise score the
`(query, title + ". " + content[:200])` pairs with the cross-encoder,
blend, and re-sort.  An exception from the cross-encoder propagates. -/
def rerank_results (hasReranker : Bool)
    (predict : List (String × String) → Except String (List ℚ))
    (query : String) (results : List SearchResult) :
    Except String (List SearchResult) :=
  if hasReranker = false ∨ results.length ≤ 1 then Except.ok results
  else
    match predict (results.map
        (fun r => (query, r.chunk.metadata.title ++ ". " ++ r.chunk.content.take 200))) with
    | Except.error e => Except.error e
    | Except.ok rerank_scores => Except.ok (sortByScoreDesc (rerankApply results rerank_scores))

/-! ### Diversification (`HybridRetriever._diversify_results`) -/

/-- `result.chunk.metadata.section_path or "unknown"` (an empty string is
falsy in Python). -/
def sectionOf (r : SearchResult) : String :=
  if r.chunk.metadata.section_path = "" then "unknown" else r.chunk.metadata.section_path

/-- Value of a `defaultdict(int)` counter (0 when the key is missing). -/
def countOf : List (String × Nat) → String → Nat
  | [], _ => 0
  | (k, v) :: rest, s => if k = s then v else countOf rest s

/-- `section_counts[section_path] += 1` on a `defaultdict(int)`. -/
def bumpCount : List (String × Nat) → String → List (String × Nat)
  | [], s => [(s, 1)]
  | (k, v) :: rest, s =>
    if k = s then (k, v + 1) :: rest else (k, v) :: bumpCount rest s

/-- The loop of `_diversify_results`: accept a result when its section's
counter is below `max_per_section` (incrementing the counter), otherwise
accept it anyway when the output so far is shorter than `k_final` (without
incrementing the counter), otherwise drop it.  `outLen` tracks
`len(diversified)`. -/
def diversifyGo (maxPS kFinal : Nat) :
    List (String × Nat) → Nat → List SearchResult → List SearchResult
  | _, _, [] => []
  | counts, outLen, r :: rest =>
    let sp := sectionOf r
    if countOf counts sp < maxPS then
      r :: diversifyGo maxPS kFinal (bumpCount counts sp) (outLen + 1) rest
    else if outLen < kFinal then
      r :: diversifyGo maxPS kFinal counts (outLen + 1) rest
    else
      diversifyGo maxPS kFinal counts outLen rest

/-- `HybridRetriever._diversify_results` with the configured
`diversification_threshold` and `k_final`. -/
def diversify_results (settings : RetrievalSettings) (results : List SearchResult) :
    List SearchResult :=
  diversifyGo settings.diversification_threshold settings.k_final [] 0 results

/-- Number of kept results whose section is `sp`. -/
def sectionCount (l : List SearchResult) (sp : String) : Nat :=
  (l.filter (fun r => sectionOf r = sp)).length

/-! ### Candidate fetch and the search pipeline

The two backend channels are modelled by the value each network call
produces: a result list, or a raised exception (`Except.error`).  Query
classification only tunes the fan-out sizes and boosts of those calls, so
it is absorbed into the channel parameters. -/

namespace LexicalSearch

/-- `LexicalSearch.search`: the whole OpenSearch call is wrapped in
`try/except` — on any exception it logs and returns the empty list. -/
def search (backendResponse : Except String (List SearchResult)) :
    List SearchResult :=
  match backendResponse with
  | Except.ok rs => rs
  | Except.error _ => []

end LexicalSearch

namespace HybridRetriever

/-- `HybridRetriever._get_candidates`: `asyncio.gather` over the two
channel calls — an exception raised by the vector task propagates, the
lexical task has already converted failure to `[]` internally. -/
def get_candidates (denseCall : Except String (List SearchResult))
    (lexicalCall : Except String (List SearchResult)) :
    Except String (List SearchResult × List SearchResult) :=
  match denseCall with
  | Except.error e => Except.error e
  | Except.ok vector_results =>
    Except.ok (vector_results, LexicalSearch.search lexicalCall)

/-- `HybridRetriever.search`: fetch candidates, fuse, rerank only when the
fused list is larger than `k_final`, diversify, truncate to `top_k`. -/
def search (settings : RetrievalSettings) (hasReranker : Bool)
    (predict : List (String × String) → Except String (List ℚ))
    (denseCall lexicalCall : Except String (List SearchResult))
    (query : String) (top_k : Nat) :
    Except String (List SearchResult) :=
  match get_candidates denseCall lexicalCall with
  | Except.error e => Except.error e
  | Except.ok (vector_results, lexical_results) =>
    let combined_results := combine_results vector_results lexical_results
    match (if settings.k_final < combined_results.length then
        rerank_results hasReranker predict query combined_results
      else Except.ok combined_results) with
    | Except.error e => Except.error e
    | Except.ok reranked_results =>
      Except.ok ((diversify_results settings reranked_results).take top_k)

end HybridRetriever

/-! ### Concrete chunks used by the concrete claims -/

/-- A minimal chunk carrying the fields the engine reads. -/
def mkChunk (cid title sp url : String) : DocumentChunk where
  content := "content of " ++ cid
  metadata :=
    { id := cid
      title := title
      section_level := 1
      section_path := sp
      content_type := ContentType.concept
      version := "1"
      module := "m"
      source_url := url
      source_format := SourceFormat.html
      hash := "h" ++ cid }

/-- A search result as produced by one of the channels. -/
def mkResult (cid : String) (score : ℚ) : SearchResult where
  chunk := mkChunk cid ("title " ++ cid) ("sec " ++ cid) "http://x"
  score := score
  explanation := "channel"

/-- A search result living in an explicitly given section. -/
def mkResultSec (cid sp : String) (score : ℚ) : SearchResult where
  chunk := mkChunk cid ("title " ++ cid) sp "http://x"
  score := score
  explanation := "channel"

/-! ### Query classification (`QueryClassifier`)

Each regular expression of `QueryClassifier` is embedded as a decidable
matcher over the list of characters of the (lowercased) query.  `\\w` is
modelled on its ASCII fragment (letters, digits, underscore), which covers
every pattern and query concerned here. -/

namespace QueryClassifier

/-- ASCII fragment of the `\\w` character class. -/
def isWordChar (c : Char) : Bool :=
  c.isAlpha || c.isDigit || c = '_'

/-- The `\\s` character class (ASCII fragment). -/
def isSpaceChar (c : Char) : Bool :=
  c = ' ' || c = '\t' || c = '\n' || c = '\r' || c = '\x0b' || c = '\x0c'

/-- Is the character at position `i` a word character (out of range counts
as a non-word position)? -/
def wordCharAt (s : List Char) (i : Nat) : Bool :=
  match s.get? i with
  | some c => isWordChar c
  | none => false

/-- `\\b` immediately before a word starting at `i`. -/
def boundaryBefore (s : List Char) (i : Nat) : Bool :=
  i == 0 || !(wordCharAt s (i - 1))

/-- `\\b` immediately after a word ending right before position `j`. -/
def boundaryAfter (s : List Char) (j : Nat) : Bool :=
  !(wordCharAt s j)

/-- A general `\\b` at position `k`: word-ness differs on the two sides. -/
def isBoundaryAt (s : List Char) (k : Nat) : Bool :=
  (if k == 0 then false else wordCharAt s (k - 1)) != wordCharAt s k

/-- The literal `w` occurs at position `i` of `s`. -/
def subseqAt (s : List Char) (i : Nat) (w : List Char) : Bool :=
  (s.drop i).take w.length == w

/-- Positions `j, ..., j+n-1` exist and hold whitespace. -/
def wsRun (s : List Char) (j n : Nat) : Bool :=
  decide (j + n ≤ s.length) && ((s.drop j).take n).all isSpaceChar

/-- `\\b(?:w1|...|wn)\\b` somewhere in `s`. -/
def matchWordAlt (s : List Char) (ws : List String) : Bool :=
  (List.range (s.length + 1)).any (fun i =>
    ws.any (fun w =>
      boundaryBefore s i && subseqAt s i w.toList &&
        boundaryAfter s (i + w.toList.length)))

/-- `\\b(?:a1|...)\\s+(?:b1|...)\\b` somewhere in `s`. -/
def matchWordGapAlt (s : List Char) (as bs : List String) : Bool :=
  (List.range (s.length + 1)).any (fun i =>
    as.any (fun a =>
      boundaryBefore s i && subseqAt s i a.toList &&
      (List.range (s.length + 1)).any (fun n =>
        decide (1 ≤ n) && wsRun s (i + a.toList.length) n &&
        bs.any (fun b =>
          subseqAt s (i + a.toList.length + n) b.toList &&
            boundaryAfter s (i + a.toList.length + n + b.toList.length)))))

/-- `\\b(?:a1|...)\\s+.*\\b` somewhere in `s` (after the whitespace there is
some later position carrying a word boundary). -/
def matchWordGapAnyBoundary (s : List Char) (as : List String) : Bool :=
  (List.range (s.length + 1)).any (fun i =>
    as.any (fun a =>
      boundaryBefore s i && subseqAt s i a.toList &&
      (List.range (s.length + 1)).any (fun n =>
        decide (1 ≤ n) && wsRun s (i + a.toList.length) n &&
        (List.range (s.length + 1)).any (fun k =>
          decide (i + a.toList.length + n ≤ k) && isBoundaryAt s k))))

/-- Positions `i, ..., i+n-1` exist and hold uppercase ASCII letters. -/
def upperRun (s : List Char) (i n : Nat) : Bool :=
  decide (i + n ≤ s.length) && ((s.drop i).take n).all (fun c => 'A' ≤ c && c ≤ 'Z')

/-- Positions `i, ..., i+n-1` exist and hold digits. -/
def digitRun (s : List Char) (i n : Nat) : Bool :=
  decide (i + n ≤ s.length) && ((s.drop i).take n).all Char.isDigit

/-- `\\b[A-Z]{2,4}-?\\d{2,4}\\b` somewhere in `s` (the error-code shape). -/
def matchErrorCode (s : List Char) : Bool :=
  (List.range (s.length + 1)).any (fun i =>
    [2, 3, 4].any (fun a =>
      boundaryBefore s i && upperRun s i a &&
      [0, 1].any (fun d =>
        (d == 0 || subseqAt s (i + a) ['-']) &&
        [2, 3, 4].any (fun m =>
          digitRun s (i + a + d) m && boundaryAfter s (i + a + d + m)))))

/-- `self.parameter_patterns` of `QueryClassifier.__init__`. -/
def parameter_patterns_match (s : List Char) : Bool :=
  matchWordAlt s ["param", "impostaz", "valori", "predefin", "default", "range"] ||
  matchWordGapAlt s ["come"] ["impostare", "configurare", "settare"] ||
  matchWordGapAlt s ["dove"] ["trovo", "si trova"] ||
  matchWordGapAlt s ["valori", "valor"] ["ammessi", "possibili", "consentiti"]

/-- `self.procedure_patterns` of `QueryClassifier.__init__`. -/
def procedure_patterns_match (s : List Char) : Bool :=
  matchWordGapAlt s ["come"] ["fare", "eseguire", "effettuare"] ||
  matchWordAlt s ["procedura", "processo", "step", "passi"] ||
  matchWordGapAlt s ["per"] ["creare", "generare", "stampare", "inviare"] ||
  matchWordGapAnyBoundary s ["configurare", "impostare"]

/-- `self.error_patterns` of `QueryClassifier.__init__`. -/
def error_patterns_match (s : List Char) : Bool :=
  matchErrorCode s ||
  matchWordAlt s ["errore", "error", "avviso", "warning", "codice"] ||
  matchWordGapAlt s ["non"] ["funziona", "va", "riesco"]

/-- `query.lower()` as a character list (ASCII lowering; the patterns and
the concrete queries involved are ASCII). -/
def loweredChars (query : String) : List Char :=
  query.toList.map Char.toLower

/-- `QueryClassifier.classify_query`: error patterns first, then
parameter, then procedure; no match is a general query. -/
def classify_query (query : String) : QueryType :=
  if error_patterns_match (loweredChars query) then QueryType.error
  else if parameter_patterns_match (loweredChars query) then QueryType.parameter
  else if procedure_patterns_match (loweredChars query) then QueryType.procedure
  else QueryType.general

end QueryClassifier

/-! ### Index lifecycle (`add_chunks` / deletes / lookups)

The two backend indices are modelled by their stored contents: Qdrant as a
list of points keyed by a numeric point id (upsert replaces the point with
the same id), OpenSearch as documents keyed by the chunk id string.
Python's process-seeded `hash` is an arbitrary parameter
`hash : String → ℤ`. -/

/-- A Qdrant point: numeric id plus the chunk payload. -/
structure VectorPoint where
  pointId : ℤ
  chunk : DocumentChunk
deriving DecidableEq, Repr

namespace VectorStore

/-- Qdrant upsert semantics: replace the point carrying the same id, else
append. -/
def upsertPoint (points : List VectorPoint) (p : VectorPoint) : List VectorPoint :=
  if points.any (fun q => q.pointId == p.pointId) then
    points.map (fun q => if q.pointId == p.pointId then p else q)
  else
    points ++ [p]

/-- `VectorStore.add_chunks`: each chunk is stored under the point id
`abs(hash(chunk.metadata.id))`. -/
def add_chunks (hash : String → ℤ) (points : List VectorPoint)
    (chunks : List DocumentChunk) : List VectorPoint :=
  chunks.foldl
    (fun ps c =>
      upsertPoint ps { pointId := ((hash c.metadata.id).natAbs : ℤ), chunk := c })
    points

/-- `VectorStore.delete_chunks_by_url`: delete every point whose payload
carries the given source url; returns the new state and the count. -/
def delete_chunks_by_url (points : List VectorPoint) (source_url : String) :
    List VectorPoint × Nat :=
  (points.filter (fun p => p.chunk.metadata.source_url ≠ source_url),
   (points.filter (fun p => p.chunk.metadata.source_url = source_url)).length)

/-- `VectorStore.get_chunk_by_id`: retrieve by the point id
`hash(chunk_id)` — without the absolute value. -/
def get_chunk_by_id (hash : String → ℤ) (points : List VectorPoint)
    (chunk_id : String) : Option DocumentChunk :=
  (points.find? (fun p => p.pointId == hash chunk_id)).map (fun p => p.chunk)

/-- `VectorStore.delete_chunk`: delete by the point id `hash(chunk_id)` —
without the absolute value. -/
def delete_chunk (hash : String → ℤ) (points : List VectorPoint)
    (chunk_id : String) : List VectorPoint :=
  points.filter (fun p => p.pointId ≠ hash chunk_id)

end VectorStore

namespace LexicalSearch

/-- OpenSearch indexing with `_id = chunk.metadata.id`: replace the
document with the same id, else append. -/
def upsertDoc (docs : List (String × DocumentChunk)) (c : DocumentChunk) :
    List (String × DocumentChunk) :=
  if docs.any (fun d => d.1 == c.metadata.id) then
    docs.map (fun d => if d.1 == c.metadata.id then (c.metadata.id, c) else d)
  else
    docs ++ [(c.metadata.id, c)]

/-- `LexicalSearch.add_chunks` (bulk upsert keyed by chunk id). -/
def add_chunks (docs : List (String × DocumentChunk))
    (chunks : List DocumentChunk) : List (String × DocumentChunk) :=
  chunks.foldl upsertDoc docs

/-- `LexicalSearch.delete_chunks_by_url` (delete-by-query on
`source_url`); returns the new state and the count. -/
def delete_chunks_by_url (docs : List (String × DocumentChunk))
    (source_url : String) : List (String × DocumentChunk) × Nat :=
  (docs.filter (fun d => d.2.metadata.source_url ≠ source_url),
   (docs.filter (fun d => d.2.metadata.source_url = source_url)).length)

end LexicalSearch

/-- The joint state of the two indices kept consistent by
`HybridRetriever`. -/
structure HybridIndexState where
  vector : List VectorPoint
  lexical : List (String × DocumentChunk)
deriving DecidableEq, Repr

namespace HybridRetriever

/-- `HybridRetriever.delete_chunks_by_url`: delete the url from both
channels, returning the two counts. -/
def delete_chunks_by_url (st : HybridIndexState) (source_url : String) :
    HybridIndexState × Nat × Nat :=
  let v := VectorStore.delete_chunks_by_url st.vector source_url
  let l := LexicalSearch.delete_chunks_by_url st.lexical source_url
  (⟨v.1, l.1⟩, v.2, l.2)

/-- The distinct truthy source urls of the incoming batch (the source
collects them in a `set`; iteration order does not affect the result of
the deletions). -/
def uniqueUrls (chunks : List DocumentChunk) : List String :=
  (chunks.filterMap (fun c =>
    if c.metadata.source_url = "" then none else some c.metadata.source_url)).dedup

/-- `HybridRetriever.add_chunks`: first delete, from both channels, every
chunk of every distinct source url present in the batch; then index the
batch in both channels. -/
def add_chunks (hash : String → ℤ) (st : HybridIndexState)
    (chunks : List DocumentChunk) : HybridIndexState :=
  let st1 := (uniqueUrls chunks).foldl
    (fun s u => (delete_chunks_by_url s u).1) st
  { vector := VectorStore.add_chunks hash st1.vector chunks,
    lexical := LexicalSearch.add_chunks st1.lexical chunks }

end HybridRetriever

/-- The chunks currently indexed in the dense channel for a source url. -/
def vectorChunksByUrl (points : List VectorPoint) (url : String) : List DocumentChunk :=
  (points.filter (fun p => p.chunk.metadata.source_url = url)).map (fun p => p.chunk)

/-- The chunks currently indexed in the lexical channel for a source url. -/
def lexicalChunksByUrl (docs : List (String × DocumentChunk)) (url : String) :
    List DocumentChunk :=
  (docs.filter (fun d => d.2.metadata.source_url = url)).map (fun d => d.2)

/-! ### Concrete inputs for counterexamples and witnesses -/

/-- Ranked input for the diversifier: one section supplies the 5 top
candidates, then 10 further candidates from 10 distinct sections. -/
def c4input : List SearchResult :=
  [mkResultSec "s1" "s" 15, mkResultSec "s2" "s" 14, mkResultSec "s3" "s" 13,
   mkResultSec "s4" "s" 12, mkResultSec "s5" "s" 11,
   mkResultSec "t1" "sec1" 10, mkResultSec "t2" "sec2" 9,
   mkResultSec "t3" "sec3" 8, mkResultSec "t4" "sec4" 7,
   mkResultSec "t5" "sec5" 6, mkResultSec "t6" "sec6" 5,
   mkResultSec "t7" "sec7" 4, mkResultSec "t8" "sec8" 3,
   mkResultSec "t9" "sec9" 2, mkResultSec "t10" "sec10" 1]

/-- A dense response with 11 distinct results, enough to exceed the
default `k_final = 10` and trigger the rerank stage. -/
def c5dense : List SearchResult :=
  [mkResult "r01" 11, mkResult "r02" 10, mkResult "r03" 9, mkResult "r04" 8,
   mkResult "r05" 7, mkResult "r06" 6, mkResult "r07" 5, mkResult "r08" 4,
   mkResult "r09" 3, mkResult "r10" 2, mkResult "r11" 1]

/-- Two chunks of the source url `http://X` (first ingestion). -/
def chX1 : DocumentChunk := mkChunk "x1" "t1" "s" "http://X"

/-- Second chunk of the first ingestion of `http://X`. -/
def chX2 : DocumentChunk := mkChunk "x2" "t2" "s" "http://X"

/-- The single chunk of the reingestion of `http://X`. -/
def chX3 : DocumentChunk := mkChunk "x3" "t3" "s" "http://X"

/-- A concrete stand-in for Python's string hash (sum of character
codes); it separates the ids used in the witnesses. -/
def hashDemo : String → ℤ :=
  fun s => ((s.toList.foldl (fun a c => a + c.toNat) 0 : ℕ) : ℤ)

/-- C1: on dense results `[(a, 0.9), (b, 0.5)]` and lexical results
`[(b, 10.0), (c, 2.0)]`, `_combine_results` yields exactly `a` with score
`1.0` and explanation "Vector: 1.000", then `b` with score
`0.6*(0.5/0.9) + 0.4*(10/10)` and explanation "Hybrid: 0.733", then `c`
with score `0.2` and explanation "Lexical: 0.200", in this (descending)
order. -/
theorem combine_results_end_to_end_scenario :
    (combine_results [mkResult "a" 0.9, mkResult "b" 0.5]
        [mkResult "b" 10.0, mkResult "c" 2.0]).map
        (fun r => (resultId r, r.score, r.explanation)) =
      [("a", 1, "Vector: 1.000"),
       ("b", 0.6 * (0.5 / 0.9) + 0.4 * (10 / 10), "Hybrid: 0.733"),
       ("c", 0.2, "Lexical: 0.200")] := by
  decide

/-! ### Properties of the stable descending sort -/

theorem insertDesc_perm (a : SearchResult) (l : List SearchResult) :
    List.Perm (insertDesc a l) (a :: l) := by
  induction l with
  | nil => exact List.Perm.refl _
  | cons b l ih =>
    by_cases h : a.score < b.score
    · simp only [insertDesc, if_pos h]
      exact (ih.cons b).trans (List.Perm.swap a b l)
    · simp only [insertDesc, if_neg h]
      exact List.Perm.refl _

theorem insertDesc_sorted (a : SearchResult) (l : List SearchResult)
    (h : ScoresNonIncreasing l) : ScoresNonIncreasing (insertDesc a l) := by
  induction l with
  | nil => simp [insertDesc]
  | cons b l ih =>
    obtain ⟨hb, hl⟩ := List.pairwise_cons.mp h
    by_cases hab : a.score < b.score
    · simp only [insertDesc, if_pos hab]
      refine List.pairwise_cons.mpr ⟨?_, ih hl⟩
      intro x hx
      rcases List.mem_cons.mp ((insertDesc_perm a l).mem_iff.mp hx) with rfl | hxl
      · exact le_of_lt hab
      · exact hb x hxl
    · simp only [insertDesc, if_neg hab]
      replace hab : b.score ≤ a.score := not_lt.mp hab
      refine List.pairwise_cons.mpr ⟨?_, h⟩
      intro x hx
      rcases List.mem_cons.mp hx with rfl | hxl
      · exact hab
      · exact (hb x hxl).trans hab

theorem sortByScoreDesc_perm (l : List SearchResult) :
    List.Perm (sortByScoreDesc l) l := by
  induction l with
  | nil => exact List.Perm.refl _
  | cons a l ih => exact (insertDesc_perm a _).trans (ih.cons a)

theorem sortByScoreDesc_sorted (l : List SearchResult) :
    ScoresNonIncreasing (sortByScoreDesc l) := by
  induction l with
  | nil => simp [sortByScoreDesc]
  | cons a l ih => exact insertDesc_sorted a _ ih

/-! ### Invariants of the fusion loops -/

theorem list_set_of_get? {α : Type} :
    ∀ (l : List α) (n : Nat) (a : α), l.get? n = some a → l.set n a = l := by
  intro l
  induction l with
  | nil => intro n a h; cases h
  | cons x l ih =>
    intro n a h
    cases n with
    | zero => cases h; rfl
    | succ n =>
      simp only [List.get?_cons_succ] at h
      simp [List.set, ih n a h]

theorem seenMatches_push (st : CombineState) (r' : SearchResult) (v : Nat)
    (h : SeenMatches st) :
    SeenMatches (st.1 ++ [r'], (resultId r', v) :: st.2) := by
  intro cid
  simp only [seenLookup, idsOf, List.map_append]
  by_cases hc : resultId r' = cid
  · subst hc
    simp [resultId]
  · simp only [if_neg hc]
    rw [h cid]
    simp only [idsOf, List.mem_append, List.map_cons, List.map_nil,
      List.mem_singleton, List.not_mem_nil]
    constructor
    · intro hm; exact Or.inl hm
    · rintro (hm | rfl)
      · exact hm
      · exact absurd rfl hc

theorem addVector_fold_inv (maxV : ℚ) (vs : List SearchResult) :
    ∀ st : CombineState, SeenMatches st →
      SeenMatches (vs.foldl (addVectorResult maxV) st) ∧
      idsOf (vs.foldl (addVectorResult maxV) st).1 = idsOf st.1 ++ vs.map resultId := by
  induction vs with
  | nil => intro st h; simpa using h
  | cons r vs ih =>
    intro st h
    have hstep : SeenMatches (addVectorResult maxV st r) :=
      seenMatches_push st _ st.1.length h
    obtain ⟨h1, h2⟩ := ih (addVectorResult maxV st r) hstep
    refine ⟨h1, ?_⟩
    rw [List.foldl_cons, h2]
    simp [addVectorResult, idsOf, resultId]

theorem addLexical_step (maxL : ℚ) (st : CombineState) (r : SearchResult)
    (h : SeenMatches st) :
    (idsOf (addLexicalResult maxL st r).1 = idsOf st.1 ∧
      resultId r ∈ idsOf st.1 ∧
      (addLexicalResult maxL st r).2 = st.2) ∨
    (idsOf (addLexicalResult maxL st r).1 = idsOf st.1 ++ [resultId r] ∧
      resultId r ∉ idsOf st.1 ∧
      (addLexicalResult maxL st r).2 = (resultId r, st.1.length) :: st.2) := by
  cases hlook : seenLookup st.2 (resultId r) with
  | none =>
    right
    have hmem : resultId r ∉ idsOf st.1 := by
      intro hm
      have hs := (h (resultId r)).mpr hm
      rw [hlook] at hs
      exact Bool.noConfusion hs
    refine ⟨?_, hmem, ?_⟩
    · simp only [addLexicalResult, hlook, idsOf, List.map_append]
      rfl
    · simp only [addLexicalResult, hlook]
  | some idx =>
    left
    have hmem : resultId r ∈ idsOf st.1 := (h (resultId r)).mp (by rw [hlook]; rfl)
    cases hget : st.1.get? idx with
    | none =>
      refine ⟨?_, hmem, ?_⟩ <;> simp only [addLexicalResult, hlook, hget]
    | some ex =>
      refine ⟨?_, hmem, ?_⟩
      · simp only [addLexicalResult, hlook, hget, idsOf]
        rw [List.map_set]
        refine list_set_of_get? _ _ _ ?_
        rw [List.get?_map, hget]
        rfl
      · simp only [addLexicalResult, hlook, hget]

theorem addLexical_fold_inv (maxL : ℚ) (ls : List SearchResult) :
    ∀ st : CombineState, SeenMatches st → (idsOf st.1).Nodup →
      SeenMatches (ls.foldl (addLexicalResult maxL) st) ∧
      (idsOf (ls.foldl (addLexicalResult maxL) st).1).Nodup ∧
      (∀ cid, cid ∈ idsOf (ls.foldl (addLexicalResult maxL) st).1 ↔
        cid ∈ idsOf st.1 ∨ cid ∈ ls.map resultId) := by
  induction ls with
  | nil =>
    intro st h hd
    exact ⟨h, hd, fun cid => by simp⟩
  | cons r ls ih =>
    intro st h hd
    rcases addLexical_step maxL st r h with
      ⟨hids, hmem, hseen⟩ | ⟨hids, hmem, hseen⟩
    · have hstep : SeenMatches (addLexicalResult maxL st r) := by
        intro cid
        rw [hseen, hids]
        exact h cid
      have hd' : (idsOf (addLexicalResult maxL st r).1).Nodup := by
        rw [hids]; exact hd
      obtain ⟨h1, h2, h3⟩ := ih (addLexicalResult maxL st r) hstep hd'
      refine ⟨h1, h2, ?_⟩
      intro cid
      rw [List.foldl_cons, h3 cid, hids]
      have hrhs : cid ∈ (r :: ls).map resultId ↔
          cid = resultId r ∨ cid ∈ ls.map resultId := by simp
      rw [hrhs]
      constructor
      · rintro (hm | hm)
        · exact Or.inl hm
        · exact Or.inr (Or.inr hm)
      · rintro (hm | hcid | hm)
        · exact Or.inl hm
        · exact Or.inl (hcid ▸ hmem)
        · exact Or.inr hm
    · have hmem2 : ∀ cid, cid ∈ idsOf st.1 ++ [resultId r] ↔
          cid ∈ idsOf st.1 ∨ cid = resultId r := by
        intro cid
        simp
      have hstep : SeenMatches (addLexicalResult maxL st r) := by
        intro cid
        rw [hseen, hids]
        simp only [seenLookup]
        by_cases hc : resultId r = cid
        · subst hc
          simp [hmem2]
        · rw [if_neg hc, h cid, hmem2 cid]
          constructor
          · intro hm
            exact Or.inl hm
          · rintro (hm | hcid)
            · exact hm
            · exact absurd hcid.symm hc
      have hd' : (idsOf (addLexicalResult maxL st r).1).Nodup := by
        rw [hids]
        have : (idsOf st.1).Nodup ∧ resultId r ∉ idsOf st.1 := ⟨hd, hmem⟩
        simpa [List.nodup_append] using this
      obtain ⟨h1, h2, h3⟩ := ih (addLexicalResult maxL st r) hstep hd'
      refine ⟨h1, h2, ?_⟩
      intro cid
      rw [List.foldl_cons, h3 cid, hids, hmem2 cid]
      have hrhs : cid ∈ (r :: ls).map resultId ↔
          cid = resultId r ∨ cid ∈ ls.map resultId := by simp
      rw [hrhs]
      constructor
      · rintro ((hm | hcid) | hm)
        · exact Or.inl hm
        · exact Or.inr (Or.inl hcid)
        · exact Or.inr (Or.inr hm)
      · rintro (hm | hcid | hm)
        · exact Or.inl (Or.inl hm)
        · exact Or.inl (Or.inr hcid)
        · exact Or.inr hm
/-- C2 counterexample: when the dense channel itself returns two results
with the same chunk id, `_combine_results` appends both of them — the
fused output contains the id twice, so the claim's "exactly one entry per
chunk identifier, also for two results of the same channel" is false. -/
theorem combine_results_duplicate_dense_ids :
    (combine_results [mkResult "a" 1, mkResult "a" 0.5] []).map resultId =
        ["a", "a"] ∧
    ¬ ((combine_results [mkResult "a" 1, mkResult "a" 0.5] []).map resultId).Nodup := by
  decide

/-- C2 (amended): provided the dense candidate list has pairwise-distinct
chunk ids, the fused output of `_combine_results` contains at most one
entry per chunk identifier — cross-channel duplicates and duplicates
within the lexical list are blended into the already-present entry — and
the ids appearing in the output are exactly the ids of the two input
lists. -/
theorem combine_results_dedup (vs ls : List SearchResult)
    (h : (vs.map resultId).Nodup) :
    (idsOf (combine_results vs ls)).Nodup ∧
    (∀ cid, cid ∈ idsOf (combine_results vs ls) ↔
      cid ∈ vs.map resultId ∨ cid ∈ ls.map resultId) := by
  have base : SeenMatches ([], []) := by
    intro cid
    simp [seenLookup, idsOf]
  obtain ⟨h1, h2⟩ := addVector_fold_inv (channelMax vs) vs ([], []) base
  have hd : (idsOf (vs.foldl (addVectorResult (channelMax vs)) ([], [])).1).Nodup := by
    rw [h2]
    simpa [idsOf] using h
  obtain ⟨_, h4, h5⟩ := addLexical_fold_inv (channelMax ls) ls _ h1 hd
  have hperm :
      List.Perm (idsOf (combine_results vs ls))
        (idsOf (ls.foldl (addLexicalResult (channelMax ls))
          (vs.foldl (addVectorResult (channelMax vs)) ([], []))).1) :=
    (sortByScoreDesc_perm _).map resultId
  constructor
  · exact hperm.nodup_iff.mpr h4
  · intro cid
    rw [hperm.mem_iff, h5 cid, h2]
    simp [idsOf]

/-- Witness for `combine_results_dedup` at a concrete input where the two
channels share the id "a". -/
theorem combine_results_dedup_witness :
    (idsOf (combine_results [mkResult "a" 0.9]
      [mkResult "a" 5, mkResult "b" 1])).Nodup :=
  (combine_results_dedup [mkResult "a" 0.9] [mkResult "a" 5, mkResult "b" 1]
    (by decide)).1

/-! ### The diversifier keeps a sublist -/

theorem diversifyGo_sublist (maxPS kFinal : Nat) :
    ∀ (l : List SearchResult) (counts : List (String × Nat)) (outLen : Nat),
      List.Sublist (diversifyGo maxPS kFinal counts outLen l) l := by
  intro l
  induction l with
  | nil =>
    intro counts outLen
    simp [diversifyGo]
  | cons r rest ih =>
    intro counts outLen
    simp only [diversifyGo]
    split
    · exact (ih _ _).cons₂ r
    · split
      · exact (ih _ _).cons₂ r
      · exact (ih _ _).cons r

/-- C3: the score sequence is non-increasing after every stage —
`_combine_results` always sorts descending; `_rerank_results` either
returns its input unchanged (preserving a descending order) or re-sorts
descending; `_diversify_results` keeps an ordered sublist of its input. -/
theorem scores_non_increasing_stages :
    ∀ (vs ls : List SearchResult) (hasReranker : Bool)
      (predict : List (String × String) → Except String (List ℚ))
      (query : String) (settings : RetrievalSettings) (rs out : List SearchResult),
      ScoresNonIncreasing (combine_results vs ls) ∧
      (rerank_results hasReranker predict query rs = Except.ok out →
        ScoresNonIncreasing rs → ScoresNonIncreasing out) ∧
      (ScoresNonIncreasing rs → ScoresNonIncreasing (diversify_results settings rs)) := by
  intro vs ls hasReranker predict query settings rs out
  refine ⟨sortByScoreDesc_sorted _, ?_, ?_⟩
  · intro heq hrs
    unfold rerank_results at heq
    split at heq
    · cases heq
      exact hrs
    · split at heq
      · cases heq
      · cases heq
        exact sortByScoreDesc_sorted _
  · intro hrs
    exact hrs.sublist (diversifyGo_sublist _ _ rs [] 0)

/-- Witness for `scores_non_increasing_stages` on concrete inputs for all
three stages. -/
theorem scores_non_increasing_stages_witness :
    ScoresNonIncreasing (combine_results [mkResult "a" 0.9, mkResult "b" 0.5]
        [mkResult "b" 10, mkResult "c" 2]) ∧
    ScoresNonIncreasing (diversify_results defaultRetrievalSettings
        [mkResult "a" 2, mkResult "b" 1]) :=
  ⟨(scores_non_increasing_stages [mkResult "a" 0.9, mkResult "b" 0.5]
      [mkResult "b" 10, mkResult "c" 2] false (fun _ => Except.error "e") "q"
      defaultRetrievalSettings [] []).1,
   (scores_non_increasing_stages [] [] false (fun _ => Except.error "e") "q"
      defaultRetrievalSettings [mkResult "a" 2, mkResult "b" 1] []).2.2 (by decide)⟩

/-! ### Per-channel normalization bounds (C8) -/

theorem foldl_pyMax_bounds (l : List SearchResult) :
    ∀ m : ℚ, m ≤ l.foldl pyMax m ∧ ∀ x ∈ l, x.score ≤ l.foldl pyMax m := by
  induction l with
  | nil =>
    intro m
    exact ⟨le_refl m, by simp⟩
  | cons y l ih =>
    intro m
    rw [List.foldl_cons]
    have hstep : m ≤ pyMax m y := by
      by_cases h : m < y.score
      · rw [pyMax, if_pos h]
        exact le_of_lt h
      · rw [pyMax, if_neg h]
    have hy : y.score ≤ pyMax m y := by
      by_cases h : m < y.score
      · rw [pyMax, if_pos h]
      · rw [pyMax, if_neg h]
        exact not_lt.mp h
    obtain ⟨h1, h2⟩ := ih (pyMax m y)
    refine ⟨le_trans hstep h1, ?_⟩
    intro x hx
    rcases List.mem_cons.mp hx with rfl | hxl
    · exact le_trans hy h1
    · exact h2 x hxl

theorem foldl_pyMax_attained (l : List SearchResult) :
    ∀ m : ℚ, l.foldl pyMax m = m ∨ ∃ x ∈ l, l.foldl pyMax m = x.score := by
  induction l with
  | nil =>
    intro m
    exact Or.inl rfl
  | cons y l ih =>
    intro m
    rw [List.foldl_cons]
    rcases ih (pyMax m y) with h | ⟨x, hx, hxe⟩
    · by_cases hc : m < y.score
      · have hval : pyMax m y = y.score := by rw [pyMax, if_pos hc]
        exact Or.inr ⟨y, List.mem_cons_self y l, h.trans hval⟩
      · have hval : pyMax m y = m := by rw [pyMax, if_neg hc]
        exact Or.inl (h.trans hval)
    · exact Or.inr ⟨x, List.mem_cons_of_mem y hx, hxe⟩

theorem channelMax_spec (rs : List SearchResult) (hne : rs ≠ []) :
    (∀ r ∈ rs, r.score ≤ channelMax rs) ∧ ∃ r ∈ rs, r.score = channelMax rs := by
  cases rs with
  | nil => exact absurd rfl hne
  | cons r rest =>
    obtain ⟨h1, h2⟩ := foldl_pyMax_bounds rest r.score
    constructor
    · intro x hx
      rcases List.mem_cons.mp hx with rfl | hxl
      · exact h1
      · exact h2 x hxl
    · rcases foldl_pyMax_attained rest r.score with h | ⟨x, hx, hxe⟩
      · exact ⟨r, List.mem_cons_self r rest, h.symm⟩
      · exact ⟨x, List.mem_cons_of_mem r hx, hxe.symm⟩

theorem addVector_fold_results (m : ℚ) (vs : List SearchResult) :
    ∀ st : CombineState,
      (vs.foldl (addVectorResult m) st).1 =
        st.1 ++ vs.map (fun r =>
          { r with score := r.score / m,
                   explanation := "Vector: " ++ fmt3 (r.score / m) }) := by
  induction vs with
  | nil =>
    intro st
    simp
  | cons r vs ih =>
    intro st
    rw [List.foldl_cons, ih]
    simp [addVectorResult]

/-- C8 counterexample: on the (non-empty) dense candidate list with scores
`[-2, -1]`, dividing by the channel maximum `-1` yields the normalized
scores `[2, 1]` — the normalized score 2 is outside `[0, 1]`, so the claim
is false for arbitrary score signs. -/
theorem normalization_negative_counterexample :
    (combine_results [mkResult "a" (-2), mkResult "b" (-1)] []).map
        (fun r => r.score) = [2, 1] ∧
    ¬ ((2 : ℚ) ≤ 1) := by
  decide

/-- C8 (amended): for every non-empty channel candidate list whose scores
are nonnegative with at least one positive score, every normalized score
`score / channelMax` lies in `[0, 1]`, the maximum-scoring candidate
normalizes to exactly 1, and consequently every score in the fused output
of that single channel lies in `[0, 1]`. -/
theorem per_channel_normalization (rs : List SearchResult)
    (hnonneg : ∀ r ∈ rs, 0 ≤ r.score) (hpos : ∃ r ∈ rs, 0 < r.score) :
    (∀ r ∈ rs, 0 ≤ r.score / channelMax rs ∧ r.score / channelMax rs ≤ 1) ∧
    (∃ r ∈ rs, r.score / channelMax rs = 1) ∧
    (∀ r ∈ combine_results rs [], 0 ≤ r.score ∧ r.score ≤ 1) := by
  obtain ⟨p, hp, hppos⟩ := hpos
  have hne : rs ≠ [] := by
    rintro rfl
    exact List.not_mem_nil p hp
  obtain ⟨hle, hatt⟩ := channelMax_spec rs hne
  have hmaxpos : 0 < channelMax rs := lt_of_lt_of_le hppos (hle p hp)
  have hbounds : ∀ r ∈ rs, 0 ≤ r.score / channelMax rs ∧ r.score / channelMax rs ≤ 1 := by
    intro r hr
    constructor
    · exact div_nonneg (hnonneg r hr) (le_of_lt hmaxpos)
    · rw [div_le_one hmaxpos]
      exact hle r hr
  have hcomb : combine_results rs [] =
      sortByScoreDesc (rs.map (fun x =>
        { x with score := x.score / channelMax rs,
                 explanation := "Vector: " ++ fmt3 (x.score / channelMax rs) })) := by
    simp only [combine_results, List.foldl_nil]
    rw [addVector_fold_results]
    simp
  refine ⟨hbounds, ?_, ?_⟩
  · obtain ⟨r, hr, hre⟩ := hatt
    refine ⟨r, hr, ?_⟩
    rw [hre]
    exact div_self (ne_of_gt hmaxpos)
  · intro r hr
    rw [hcomb] at hr
    have hr2 := (sortByScoreDesc_perm _).mem_iff.mp hr
    obtain ⟨x, hx, rfl⟩ := List.mem_map.mp hr2
    exact hbounds x hx

/-- Witness for `per_channel_normalization` at the end-to-end scenario's
dense channel list. -/
theorem per_channel_normalization_witness :
    0 ≤ (mkResult "a" 0.9).score / channelMax [mkResult "a" 0.9, mkResult "b" 0.5] ∧
    (mkResult "a" 0.9).score / channelMax [mkResult "a" 0.9, mkResult "b" 0.5] ≤ 1 :=
  (per_channel_normalization [mkResult "a" 0.9, mkResult "b" 0.5]
    (by decide) ⟨mkResult "a" 0.9, by decide⟩).1 (mkResult "a" 0.9) (by decide)

/-! ### The diversifier's per-section bound (C4) -/

theorem countOf_bump_self (counts : List (String × Nat)) (s : String) :
    countOf (bumpCount counts s) s = countOf counts s + 1 := by
  induction counts with
  | nil => simp [bumpCount, countOf]
  | cons kv rest ih =>
    obtain ⟨k, v⟩ := kv
    by_cases hk : k = s
    · subst hk
      simp [bumpCount, countOf]
    · simp [bumpCount, countOf, hk, ih]

theorem countOf_bump_ne (counts : List (String × Nat)) (s sp : String)
    (h : s ≠ sp) : countOf (bumpCount counts s) sp = countOf counts sp := by
  induction counts with
  | nil => simp [bumpCount, countOf, h]
  | cons kv rest ih =>
    obtain ⟨k, v⟩ := kv
    by_cases hk : k = s
    · subst hk
      simp [bumpCount, countOf, h]
    · simp [bumpCount, countOf, hk, ih]

theorem sectionCount_cons (r : SearchResult) (l : List SearchResult) (sp : String) :
    sectionCount (r :: l) sp =
      (if sectionOf r = sp then 1 else 0) + sectionCount l sp := by
  by_cases h : sectionOf r = sp
  · simp only [sectionCount, List.filter_cons, h]
    simp [Nat.add_comm]
  · simp [sectionCount, List.filter_cons, h]

theorem diversifyGo_section_bound (maxPS kFinal : Nat) (sp : String) :
    ∀ (l : List SearchResult) (counts : List (String × Nat)) (outLen : Nat),
      sectionCount (diversifyGo maxPS kFinal counts outLen l) sp ≤
        (maxPS - countOf counts sp) + (kFinal - outLen) := by
  intro l
  induction l with
  | nil =>
    intro counts outLen
    simp [diversifyGo, sectionCount]
  | cons r rest ih =>
    intro counts outLen
    simp only [diversifyGo]
    by_cases h1 : countOf counts (sectionOf r) < maxPS
    · rw [if_pos h1, sectionCount_cons]
      have hrec := ih (bumpCount counts (sectionOf r)) (outLen + 1)
      by_cases hsp : sectionOf r = sp
      · rw [if_pos hsp]
        rw [hsp] at h1
        have hbump : countOf (bumpCount counts (sectionOf r)) sp =
            countOf counts sp + 1 := by
          rw [hsp]
          exact countOf_bump_self counts sp
        rw [hbump] at hrec
        omega
      · rw [if_neg hsp]
        rw [countOf_bump_ne counts (sectionOf r) sp hsp] at hrec
        omega
    · rw [if_neg h1]
      by_cases h2 : outLen < kFinal
      · rw [if_pos h2, sectionCount_cons]
        have hrec := ih counts (outLen + 1)
        by_cases hsp : sectionOf r = sp
        · rw [if_pos hsp]
          omega
        · rw [if_neg hsp]
          omega
      · rw [if_neg h2]
        exact le_trans (ih counts outLen) (le_refl _)

/-- C4 counterexample: with `maxPerSection = 2` and `finalSize = 10` (the
configured defaults), on a ranked list where section "s" supplies the top
5 candidates followed by 10 candidates from 10 pairwise-distinct other
sections, the diversifier keeps all 5 results of section "s" even though
capping every section at 2 would leave 12 ≥ 10 results — the claimed
"at most 2 unless fewer than 10 results survive the cap" is false. -/
theorem diversify_cap_counterexample :
    sectionCount (diversify_results defaultRetrievalSettings c4input) "s" = 5 ∧
    ¬ (sectionCount (diversify_results defaultRetrievalSettings c4input) "s" ≤ 2) ∧
    (c4input.filter (fun r => sectionOf r ≠ "s")).length = 10 ∧
    ((c4input.filter (fun r => sectionOf r ≠ "s")).map sectionOf).Nodup := by
  decide

/-- C4 (amended): the diversifier accepts a result when its section's
counter is below `maxPerSection` (incrementing the counter), and otherwise
still accepts it whenever the output so far is shorter than `finalSize`
(without incrementing) — so a single section can contribute up to
`maxPerSection + finalSize` results; that sum is the tight general cap,
and the per-section cap of `maxPerSection` alone is only guaranteed for
results encountered after the output has reached `finalSize` entries. -/
theorem diversify_results_section_bound (settings : RetrievalSettings)
    (l : List SearchResult) (sp : String) :
    sectionCount (diversify_results settings l) sp ≤
      settings.diversification_threshold + settings.k_final := by
  have h := diversifyGo_section_bound settings.diversification_threshold
    settings.k_final sp l [] 0
  simpa [diversify_results, countOf] using h

/-! ### Failure behaviour of the rerank stage (C5) -/

set_option maxRecDepth 10000 in
/-- C5 counterexample: the source wraps no `try/except` around the
cross-encoder call — with a loaded reranker, a fused list larger than
`k_final`, and a raising scorer, `search` itself raises instead of
returning the fused order. -/
theorem rerank_failure_crashes_search :
    HybridRetriever.search defaultRetrievalSettings true
        (fun _ => Except.error "cross-encoder failure") (Except.ok c5dense)
        (Except.ok []) "q" 10 = Except.error "cross-encoder failure" := by
  rfl

/-- C5 (amended): the rerank stage is skipped — returning the fused list
unchanged — exactly when no reranker is loaded or the list has at most one
element (and `search` only invokes it when the fused list is larger than
`k_final`); when the stage does run and the cross-encoder raises, the
exception propagates out of `search` — there is no local recovery. -/
theorem rerank_failure_behavior :
    ∀ (predict : List (String × String) → Except String (List ℚ)) (query : String)
      (results : List SearchResult) (hasReranker : Bool) (e : String)
      (settings : RetrievalSettings) (vs ls : List SearchResult) (top_k : Nat),
      (hasReranker = false ∨ results.length ≤ 1 →
        rerank_results hasReranker predict query results = Except.ok results) ∧
      (settings.k_final < (combine_results vs ls).length →
        rerank_results hasReranker predict query (combine_results vs ls) =
          Except.error e →
        HybridRetriever.search settings hasReranker predict (Except.ok vs)
          (Except.ok ls) query top_k = Except.error e) := by
  intro predict query results hasReranker e settings vs ls top_k
  constructor
  · intro h
    unfold rerank_results
    rw [if_pos h]
  · intro hlen herr
    simp only [HybridRetriever.search, HybridRetriever.get_candidates,
      LexicalSearch.search]
    rw [if_pos hlen, herr]

set_option maxRecDepth 10000 in
/-- Witness for `rerank_failure_behavior`: the skip case on a singleton
list and the propagation case on an 11-element dense response. -/
theorem rerank_failure_behavior_witness :
    rerank_results false (fun _ => Except.error "e") "q" [mkResult "a" 1] =
      Except.ok [mkResult "a" 1] ∧
    HybridRetriever.search defaultRetrievalSettings true
      (fun _ => Except.error "boom") (Except.ok c5dense) (Except.ok []) "q" 10 =
      Except.error "boom" :=
  ⟨(rerank_failure_behavior (fun _ => Except.error "e") "q" [mkResult "a" 1] false "e"
      defaultRetrievalSettings [] [] 10).1 (Or.inl rfl),
   (rerank_failure_behavior (fun _ => Except.error "boom") "q" [] true "boom"
      defaultRetrievalSettings c5dense [] 10).2 (by decide) (by rfl)⟩

/-! ### Failure behaviour of the candidate fetch (C6) -/

/-- C6 counterexample: when the lexical backend raises,
`LexicalSearch.search` swallows the exception and returns `[]` — the
fetcher delivers the dense candidates with an empty lexical list, and
`search` succeeds (on dense results alone) rather than propagating
the lexical channel's error. -/
theorem lexical_failure_masked_counterexample :
    HybridRetriever.get_candidates (Except.ok [mkResult "a" 1])
        (Except.error "opensearch unavailable") =
      Except.ok ([mkResult "a" 1], []) ∧
    HybridRetriever.search defaultRetrievalSettings false (fun _ => Except.error "e")
        (Except.ok [mkResult "a" 1]) (Except.error "opensearch unavailable") "q" 10 =
      Except.ok [{ chunk := mkChunk "a" "title a" "sec a" "http://x",
                   score := 1, explanation := "Vector: 1.000" }] :=
  ⟨rfl, rfl⟩

/-- C6 (amended): a dense-channel failure during candidate fetch
propagates to the caller of `search`; a lexical-channel failure does not
propagate — it is caught inside `LexicalSearch.search`, which substitutes
the empty result list, so the fetcher returns the dense candidates paired
with `[]`. -/
theorem channel_failure_behavior :
    ∀ (settings : RetrievalSettings) (hasReranker : Bool)
      (predict : List (String × String) → Except String (List ℚ))
      (query : String) (top_k : Nat) (e : String)
      (lexicalCall : Except String (List SearchResult)) (vs : List SearchResult),
      HybridRetriever.search settings hasReranker predict (Except.error e)
        lexicalCall query top_k = Except.error e ∧
      LexicalSearch.search (Except.error e) = [] ∧
      HybridRetriever.get_candidates (Except.ok vs) (Except.error e) =
        Except.ok (vs, []) := by
  intro settings hasReranker predict query top_k e lexicalCall vs
  exact ⟨rfl, rfl, rfl⟩

/-! ### Classifier precedence (C7) -/

/-- C7: `classify_query` is a pure function of the query string checking
the error patterns first, then the parameter patterns, then the procedure
patterns, first match winning, with GENERAL when nothing matches — and the
concrete query "errore nel calcolo del parametro IVA" classifies as ERROR
and not as PARAMETER. -/
theorem classify_query_precedence :
    (∀ q : String,
      QueryClassifier.error_patterns_match (QueryClassifier.loweredChars q) = true →
      QueryClassifier.classify_query q = QueryType.error) ∧
    (∀ q : String,
      QueryClassifier.error_patterns_match (QueryClassifier.loweredChars q) = false →
      QueryClassifier.parameter_patterns_match (QueryClassifier.loweredChars q) = true →
      QueryClassifier.classify_query q = QueryType.parameter) ∧
    (∀ q : String,
      QueryClassifier.error_patterns_match (QueryClassifier.loweredChars q) = false →
      QueryClassifier.parameter_patterns_match (QueryClassifier.loweredChars q) = false →
      QueryClassifier.procedure_patterns_match (QueryClassifier.loweredChars q) = true →
      QueryClassifier.classify_query q = QueryType.procedure) ∧
    (∀ q : String,
      QueryClassifier.error_patterns_match (QueryClassifier.loweredChars q) = false →
      QueryClassifier.parameter_patterns_match (QueryClassifier.loweredChars q) = false →
      QueryClassifier.procedure_patterns_match (QueryClassifier.loweredChars q) = false →
      QueryClassifier.classify_query q = QueryType.general) ∧
    QueryClassifier.classify_query "errore nel calcolo del parametro IVA" =
      QueryType.error ∧
    QueryClassifier.classify_query "errore nel calcolo del parametro IVA" ≠
      QueryType.parameter := by
  refine ⟨?_, ?_, ?_, ?_, ?_, ?_⟩
  · intro q h
    simp [QueryClassifier.classify_query, h]
  · intro q h1 h2
    simp [QueryClassifier.classify_query, h1, h2]
  · intro q h1 h2 h3
    simp [QueryClassifier.classify_query, h1, h2, h3]
  · intro q h1 h2 h3
    simp [QueryClassifier.classify_query, h1, h2, h3]
  · decide
  · decide

/-- Witness for `classify_query_precedence`: one concrete query per
branch of the precedence order. -/
theorem classify_query_precedence_witness :
    QueryClassifier.classify_query "errore di sistema" = QueryType.error ∧
    QueryClassifier.classify_query "valori ammessi" = QueryType.parameter ∧
    QueryClassifier.classify_query "procedura di stampa" = QueryType.procedure ∧
    QueryClassifier.classify_query "ciao" = QueryType.general :=
  ⟨classify_query_precedence.1 "errore di sistema" (by decide),
   classify_query_precedence.2.1 "valori ammessi" (by decide) (by decide),
   classify_query_precedence.2.2.1 "procedura di stampa" (by decide) (by decide)
     (by decide),
   classify_query_precedence.2.2.2.1 "ciao" (by decide) (by decide) (by decide)⟩

/-! ### Replace-on-reingest of `add_chunks` (C9) -/

theorem deleteFold_subset (urls : List String) :
    ∀ st : HybridIndexState,
      (∀ p ∈ (urls.foldl (fun s v => (HybridRetriever.delete_chunks_by_url s v).1) st).vector,
        p ∈ st.vector) ∧
      (∀ d ∈ (urls.foldl (fun s v => (HybridRetriever.delete_chunks_by_url s v).1) st).lexical,
        d ∈ st.lexical) := by
  induction urls with
  | nil =>
    intro st
    exact ⟨fun p hp => hp, fun d hd => hd⟩
  | cons v urls ih =>
    intro st
    obtain ⟨h1, h2⟩ := ih ((HybridRetriever.delete_chunks_by_url st v).1)
    simp only [List.foldl_cons]
    constructor
    · intro p hp
      exact List.mem_of_mem_filter (h1 p hp)
    · intro d hd
      exact List.mem_of_mem_filter (h2 d hd)

theorem deleteFold_no_url (urls : List String) (u : String) :
    ∀ st : HybridIndexState, u ∈ urls →
      (∀ p ∈ (urls.foldl (fun s v => (HybridRetriever.delete_chunks_by_url s v).1) st).vector,
        p.chunk.metadata.source_url ≠ u) ∧
      (∀ d ∈ (urls.foldl (fun s v => (HybridRetriever.delete_chunks_by_url s v).1) st).lexical,
        d.2.metadata.source_url ≠ u) := by
  induction urls with
  | nil =>
    intro st hu
    exact absurd hu (List.not_mem_nil u)
  | cons v urls ih =>
    intro st hu
    simp only [List.foldl_cons]
    rcases List.mem_cons.mp hu with rfl | hmem
    · obtain ⟨h1, h2⟩ := deleteFold_subset urls ((HybridRetriever.delete_chunks_by_url st u).1)
      constructor
      · intro p hp
        have hfilter := List.of_mem_filter (h1 p hp)
        simpa using hfilter
      · intro d hd
        have hfilter := List.of_mem_filter (h2 d hd)
        simpa using hfilter
    · exact ih _ hmem

theorem vs_add_no_collision (hash : String → ℤ) (chunks : List DocumentChunk) :
    ∀ points : List VectorPoint,
      (chunks.map (fun c => ((hash c.metadata.id).natAbs : ℤ))).Nodup →
      (∀ c ∈ chunks, ∀ p ∈ points, ((hash c.metadata.id).natAbs : ℤ) ≠ p.pointId) →
      VectorStore.add_chunks hash points chunks =
        points ++ chunks.map (fun c =>
          { pointId := ((hash c.metadata.id).natAbs : ℤ), chunk := c }) := by
  induction chunks with
  | nil =>
    intro points _ _
    simp [VectorStore.add_chunks]
  | cons c chunks ih =>
    intro points hnodup hdis
    have hany : points.any
        (fun q => q.pointId == ((hash c.metadata.id).natAbs : ℤ)) = false := by
      refine List.any_eq_false.mpr ?_
      intro q hq
      simp only [beq_iff_eq]
      exact (hdis c (List.mem_cons_self c chunks) q hq).symm
    have hupsert : VectorStore.upsertPoint points
        { pointId := ((hash c.metadata.id).natAbs : ℤ), chunk := c } =
        points ++ [{ pointId := ((hash c.metadata.id).natAbs : ℤ), chunk := c }] := by
      unfold VectorStore.upsertPoint
      rw [if_neg]
      simp only [hany]
      exact Bool.false_ne_true
    rw [List.map_cons, List.nodup_cons] at hnodup
    obtain ⟨hhead, htail⟩ := hnodup
    have hdis' : ∀ c' ∈ chunks,
        ∀ p ∈ points ++ [{ pointId := ((hash c.metadata.id).natAbs : ℤ), chunk := c }],
        ((hash c'.metadata.id).natAbs : ℤ) ≠ p.pointId := by
      intro c' hc' p hp
      rcases List.mem_append.mp hp with hm | hm
      · exact hdis c' (List.mem_cons_of_mem c hc') p hm
      · rw [List.mem_singleton.mp hm]
        intro heq
        exact hhead (List.mem_map.mpr ⟨c', hc', heq⟩)
    have := ih (points ++ [{ pointId := ((hash c.metadata.id).natAbs : ℤ), chunk := c }])
      htail hdis'
    calc VectorStore.add_chunks hash points (c :: chunks)
        = VectorStore.add_chunks hash
            (points ++ [{ pointId := ((hash c.metadata.id).natAbs : ℤ), chunk := c }])
            chunks := by
          simp only [VectorStore.add_chunks, List.foldl_cons]
          rw [hupsert]
      _ = points ++ (c :: chunks).map (fun c =>
            { pointId := ((hash c.metadata.id).natAbs : ℤ), chunk := c }) := by
          rw [this]
          simp

theorem lex_add_no_collision (chunks : List DocumentChunk) :
    ∀ docs : List (String × DocumentChunk),
      (chunks.map (fun c => c.metadata.id)).Nodup →
      (∀ c ∈ chunks, ∀ d ∈ docs, c.metadata.id ≠ d.1) →
      LexicalSearch.add_chunks docs chunks =
        docs ++ chunks.map (fun c => (c.metadata.id, c)) := by
  induction chunks with
  | nil =>
    intro docs _ _
    simp [LexicalSearch.add_chunks]
  | cons c chunks ih =>
    intro docs hnodup hdis
    have hany : docs.any (fun d => d.1 == c.metadata.id) = false := by
      refine List.any_eq_false.mpr ?_
      intro d hd
      simp only [beq_iff_eq]
      exact (hdis c (List.mem_cons_self c chunks) d hd).symm
    have hupsert : LexicalSearch.upsertDoc docs c = docs ++ [(c.metadata.id, c)] := by
      unfold LexicalSearch.upsertDoc
      rw [if_neg]
      simp only [hany]
      exact Bool.false_ne_true
    rw [List.map_cons, List.nodup_cons] at hnodup
    obtain ⟨hhead, htail⟩ := hnodup
    have hdis' : ∀ c' ∈ chunks, ∀ d ∈ docs ++ [(c.metadata.id, c)],
        c'.metadata.id ≠ d.1 := by
      intro c' hc' d hd
      rcases List.mem_append.mp hd with hm | hm
      · exact hdis c' (List.mem_cons_of_mem c hc') d hm
      · rw [List.mem_singleton.mp hm]
        intro heq
        exact hhead (List.mem_map.mpr ⟨c', hc', heq⟩)
    have := ih (docs ++ [(c.metadata.id, c)]) htail hdis'
    calc LexicalSearch.add_chunks docs (c :: chunks)
        = LexicalSearch.add_chunks (docs ++ [(c.metadata.id, c)]) chunks := by
          simp only [LexicalSearch.add_chunks, List.foldl_cons]
          rw [hupsert]
      _ = docs ++ (c :: chunks).map (fun c => (c.metadata.id, c)) := by
          rw [this]
          simp

theorem vectorChunksByUrl_append (a b : List VectorPoint) (u : String) :
    vectorChunksByUrl (a ++ b) u = vectorChunksByUrl a u ++ vectorChunksByUrl b u := by
  simp [vectorChunksByUrl, List.filter_append]

theorem lexicalChunksByUrl_append (a b : List (String × DocumentChunk)) (u : String) :
    lexicalChunksByUrl (a ++ b) u = lexicalChunksByUrl a u ++ lexicalChunksByUrl b u := by
  simp [lexicalChunksByUrl, List.filter_append]

theorem vectorChunksByUrl_nil_of_no_url (a : List VectorPoint) (u : String)
    (h : ∀ p ∈ a, p.chunk.metadata.source_url ≠ u) :
    vectorChunksByUrl a u = [] := by
  unfold vectorChunksByUrl
  have : a.filter (fun p => p.chunk.metadata.source_url = u) = [] := by
    refine List.filter_eq_nil.mpr ?_
    intro p hp
    simpa using h p hp
  rw [this]
  rfl

theorem lexicalChunksByUrl_nil_of_no_url (a : List (String × DocumentChunk)) (u : String)
    (h : ∀ d ∈ a, d.2.metadata.source_url ≠ u) :
    lexicalChunksByUrl a u = [] := by
  unfold lexicalChunksByUrl
  have : a.filter (fun d => d.2.metadata.source_url = u) = [] := by
    refine List.filter_eq_nil.mpr ?_
    intro d hd
    simpa using h d hd
  rw [this]
  rfl

theorem vectorChunksByUrl_map_points (g : DocumentChunk → ℤ) (u : String) :
    ∀ chunks : List DocumentChunk,
      vectorChunksByUrl (chunks.map (fun c =>
        { pointId := g c, chunk := c })) u =
        chunks.filter (fun c => c.metadata.source_url = u) := by
  intro chunks
  induction chunks with
  | nil => rfl
  | cons c chunks ih =>
    by_cases h : c.metadata.source_url = u
    · simp only [vectorChunksByUrl, List.map_cons, List.filter_cons] at ih ⊢
      simp [h, ih]
    · simp only [vectorChunksByUrl, List.map_cons, List.filter_cons] at ih ⊢
      simp [h, ih]

theorem lexicalChunksByUrl_map_docs (u : String) :
    ∀ chunks : List DocumentChunk,
      lexicalChunksByUrl (chunks.map (fun c => (c.metadata.id, c))) u =
        chunks.filter (fun c => c.metadata.source_url = u) := by
  intro chunks
  induction chunks with
  | nil => rfl
  | cons c chunks ih =>
    by_cases h : c.metadata.source_url = u
    · simp only [lexicalChunksByUrl, List.map_cons, List.filter_cons] at ih ⊢
      simp [h, ih]
    · simp only [lexicalChunksByUrl, List.map_cons, List.filter_cons] at ih ⊢
      simp [h, ih]

/-- C9: `add_chunks` first deletes, from both channels, every previously
indexed chunk of every distinct source url of the batch and only then
inserts the batch — so for each url present in the batch, the chunks
indexed afterwards for that url are exactly the batch's chunks for it
(no stale chunk of a prior ingestion coexists with the new ones).  The
hypotheses state that the backend ids derived from the batch do not
collide among themselves or with already-stored points. -/
theorem add_chunks_replaces_url (hash : String → ℤ) (st : HybridIndexState)
    (chunks : List DocumentChunk) (u : String)
    (hu : u ≠ "")
    (hin : ∃ c ∈ chunks, c.metadata.source_url = u)
    (hvids : (chunks.map (fun c => ((hash c.metadata.id).natAbs : ℤ))).Nodup)
    (hlids : (chunks.map (fun c => c.metadata.id)).Nodup)
    (hvdis : ∀ c ∈ chunks, ∀ p ∈ st.vector,
      ((hash c.metadata.id).natAbs : ℤ) ≠ p.pointId)
    (hldis : ∀ c ∈ chunks, ∀ d ∈ st.lexical, c.metadata.id ≠ d.1) :
    vectorChunksByUrl (HybridRetriever.add_chunks hash st chunks).vector u =
      chunks.filter (fun c => c.metadata.source_url = u) ∧
    lexicalChunksByUrl (HybridRetriever.add_chunks hash st chunks).lexical u =
      chunks.filter (fun c => c.metadata.source_url = u) := by
  have humem : u ∈ HybridRetriever.uniqueUrls chunks := by
    obtain ⟨c, hc, hcu⟩ := hin
    unfold HybridRetriever.uniqueUrls
    rw [List.mem_dedup]
    refine List.mem_filterMap.mpr ⟨c, hc, ?_⟩
    rw [hcu, if_neg hu]
  obtain ⟨hnoV, hnoL⟩ :=
    deleteFold_no_url (HybridRetriever.uniqueUrls chunks) u st humem
  obtain ⟨hsubV, hsubL⟩ := deleteFold_subset (HybridRetriever.uniqueUrls chunks) st
  have hvdis1 : ∀ c ∈ chunks,
      ∀ p ∈ ((HybridRetriever.uniqueUrls chunks).foldl
        (fun s v => (HybridRetriever.delete_chunks_by_url s v).1) st).vector,
      ((hash c.metadata.id).natAbs : ℤ) ≠ p.pointId :=
    fun c hc p hp => hvdis c hc p (hsubV p hp)
  have hldis1 : ∀ c ∈ chunks,
      ∀ d ∈ ((HybridRetriever.uniqueUrls chunks).foldl
        (fun s v => (HybridRetriever.delete_chunks_by_url s v).1) st).lexical,
      c.metadata.id ≠ d.1 :=
    fun c hc d hd => hldis c hc d (hsubL d hd)
  have hveq := vs_add_no_collision hash chunks _ hvids hvdis1
  have hleq := lex_add_no_collision chunks _ hlids hldis1
  constructor
  · show vectorChunksByUrl (VectorStore.add_chunks hash _ chunks) u = _
    rw [hveq, vectorChunksByUrl_append,
      vectorChunksByUrl_nil_of_no_url _ u hnoV,
      vectorChunksByUrl_map_points (fun c => ((hash c.metadata.id).natAbs : ℤ)) u chunks]
    rfl
  · show lexicalChunksByUrl (LexicalSearch.add_chunks _ chunks) u = _
    rw [hleq, lexicalChunksByUrl_append,
      lexicalChunksByUrl_nil_of_no_url _ u hnoL,
      lexicalChunksByUrl_map_docs u chunks]
    rfl

/-- Witness for `add_chunks_replaces_url`: index two chunks for
`http://X`, reingest one different chunk for the same url — exactly that
one chunk is indexed for `http://X` afterwards, in both channels. -/
theorem add_chunks_replaces_url_witness :
    vectorChunksByUrl
      (HybridRetriever.add_chunks hashDemo
        (HybridRetriever.add_chunks hashDemo ⟨[], []⟩ [chX1, chX2]) [chX3]).vector
      "http://X" = [chX3] ∧
    lexicalChunksByUrl
      (HybridRetriever.add_chunks hashDemo
        (HybridRetriever.add_chunks hashDemo ⟨[], []⟩ [chX1, chX2]) [chX3]).lexical
      "http://X" = [chX3] := by
  have h := add_chunks_replaces_url hashDemo
    (HybridRetriever.add_chunks hashDemo ⟨[], []⟩ [chX1, chX2]) [chX3] "http://X"
    (by decide) ⟨chX3, List.mem_cons_self chX3 [], rfl⟩
    (by decide) (by decide) (by decide) (by decide)
  exact ⟨h.1.trans (by decide), h.2.trans (by decide)⟩

/-! ### Dense-channel point id mismatch (C10) -/

theorem upsertPoint_mem_self (points : List VectorPoint) (p : VectorPoint) :
    p ∈ VectorStore.upsertPoint points p := by
  unfold VectorStore.upsertPoint
  by_cases h : (points.any (fun q => q.pointId == p.pointId)) = true
  · rw [if_pos h]
    obtain ⟨q, hq, hqp⟩ := List.any_eq_true.mp h
    refine List.mem_map.mpr ⟨q, hq, ?_⟩
    rw [if_pos hqp]
  · rw [if_neg h]
    exact List.mem_append_right _ (List.mem_singleton.mpr rfl)

theorem upsertPoint_mem (points : List VectorPoint) (p x : VectorPoint)
    (hx : x ∈ VectorStore.upsertPoint points p) : x ∈ points ∨ x = p := by
  unfold VectorStore.upsertPoint at hx
  by_cases h : (points.any (fun q => q.pointId == p.pointId)) = true
  · rw [if_pos h] at hx
    obtain ⟨q, hq, hqe⟩ := List.mem_map.mp hx
    by_cases hqp : (q.pointId == p.pointId) = true
    · rw [if_pos hqp] at hqe
      exact Or.inr hqe.symm
    · rw [if_neg hqp] at hqe
      exact Or.inl (hqe ▸ hq)
  · rw [if_neg h] at hx
    rcases List.mem_append.mp hx with hm | hm
    · exact Or.inl hm
    · exact Or.inr (List.mem_singleton.mp hm)

/-- C10: `VectorStore.add_chunks` stores a chunk under the numeric point
id `abs(hash(chunk_id))` while `get_chunk_by_id` and `delete_chunk`
address the point id `hash(chunk_id)` without the absolute value — for a
chunk identifier whose hash is negative (over a store whose point ids are
all nonnegative, as every id written by `add_chunks` is), the chunk is
stored, yet an immediate dense-channel `get_chunk_by_id` finds nothing and
`delete_chunk` deletes nothing. -/
theorem point_id_hash_mismatch (hash : String → ℤ) (points : List VectorPoint)
    (c : DocumentChunk)
    (hneg : hash c.metadata.id < 0)
    (hnn : ∀ p ∈ points, 0 ≤ p.pointId) :
    VectorStore.get_chunk_by_id hash (VectorStore.add_chunks hash points [c])
        c.metadata.id = none ∧
    (∃ p ∈ VectorStore.add_chunks hash points [c], p.chunk = c) ∧
    VectorStore.delete_chunk hash (VectorStore.add_chunks hash points [c])
        c.metadata.id = VectorStore.add_chunks hash points [c] := by
  have hmem_nn : ∀ p ∈ VectorStore.add_chunks hash points [c], 0 ≤ p.pointId := by
    intro p hp
    rcases upsertPoint_mem points _ p hp with hm | hm
    · exact hnn p hm
    · rw [hm]
      exact Int.natCast_nonneg _
  refine ⟨?_, ?_, ?_⟩
  · unfold VectorStore.get_chunk_by_id
    have hfind : (VectorStore.add_chunks hash points [c]).find?
        (fun p => p.pointId == hash c.metadata.id) = none := by
      refine List.find?_eq_none.mpr ?_
      intro p hp
      have h0 := hmem_nn p hp
      simp only [beq_iff_eq]
      intro heq
      rw [heq] at h0
      omega
    rw [hfind]
    rfl
  · refine ⟨{ pointId := ((hash c.metadata.id).natAbs : ℤ), chunk := c }, ?_, rfl⟩
    exact upsertPoint_mem_self points _
  · unfold VectorStore.delete_chunk
    refine List.filter_eq_self.mpr ?_
    intro p hp
    have h0 := hmem_nn p hp
    have hne : p.pointId ≠ hash c.metadata.id := by
      intro heq
      rw [heq] at h0
      omega
    simpa using hne

/-- Witness for `point_id_hash_mismatch` with the constant hash `-5`. -/
theorem point_id_hash_mismatch_witness :
    VectorStore.get_chunk_by_id (fun _ => (-5 : ℤ))
        (VectorStore.add_chunks (fun _ => (-5 : ℤ)) [] [chX1])
        chX1.metadata.id = none :=
  (point_id_hash_mismatch (fun _ => (-5 : ℤ)) [] chX1 (by decide) (by simp)).1
